import Mathlib

/-!
Verification development for the TermView ANSI terminal-buffer engine.

The definitions below are a shallow embedding of the TypeScript source
(`TermViewProvider.getAnsiHtml`, the webview script's `reconstructAnsi` /
`processNode`).  Machine arithmetic on cursor coordinates is modelled with
`Int` (JavaScript numbers, with the explicit `Math.max 0` clamps of the
source); the token scanner models the global regex

  (ESC[[0-9;?]*letter) | (ESC].*?(BEL|ESC backslash)) | (ESC[=>]) | ([\r\n\b]) | ([^ESC\r\n\b]+)

with JavaScript semantics: leftmost alternative, lazy OSC payload whose dot
matches every character except the line terminators, greedy text runs, and
silent skipping of positions where no alternative matches.
-/

/-- Characters allowed inside the parameter part of a CSI sequence. -/
def isCsiParam (c : Char) : Bool :=
  ('0' ≤ c && c ≤ '9') || c = ';' || c = '?'

/-- ASCII letters, the final byte of a CSI sequence. -/
def isFinalLetter (c : Char) : Bool :=
  ('a' ≤ c && c ≤ 'z') || ('A' ≤ c && c ≤ 'Z')

/-- The three control characters recognised by the token scanner. -/
def isCtrlChar (c : Char) : Bool :=
  c = '\r' || c = '\n' || c = '\x08'

/-- Characters that may appear in a plain-text run. -/
def isTextChar (c : Char) : Bool :=
  !(c = '\x1b' || c = '\r' || c = '\n' || c = '\x08')

/-- Characters matched by the JavaScript regex dot (no line terminators). -/
def isDotChar (c : Char) : Bool :=
  !(c = '\n' || c = '\r' || c = '\u2028' || c = '\u2029')

/-- The token kinds produced by the scanner, one per regex capture group. -/
inductive Token where
  | csi (seq : String)
  | osc (seq : String)
  | keypad (seq : String)
  | ctrl (c : Char)
  | text (s : String)
deriving Repr, DecidableEq

/-- Match a CSI sequence at the head of the input:
escape, `[`, a greedy run of parameter characters, one final letter. -/
def matchCsi : List Char → Option (String × List Char)
  | e :: b :: rest =>
    if e = '\x1b' ∧ b = '[' then
      match rest.dropWhile isCsiParam with
      | c :: rest' =>
        if isFinalLetter c then
          some (String.mk ('\x1b' :: '[' :: (rest.takeWhile isCsiParam ++ [c])), rest')
        else none
      | [] => none
    else none
  | _ => none

/-- Lazy scan of an OSC payload: stop at the first bell or ESC-backslash,
consume dot-matchable characters otherwise, fail on a line terminator. -/
def oscScan : List Char → Option (List Char × List Char)
  | [] => none
  | c :: cs =>
    if c = '\x07' then some ([c], cs)
    else if c = '\x1b' ∧ cs.head? = some '\\' then some ([c, '\\'], cs.tail)
    else if isDotChar c then
      (oscScan cs).map (fun pr => (c :: pr.1, pr.2))
    else none

/-- Match an OSC sequence at the head of the input: escape, `]`, lazy payload. -/
def matchOsc : List Char → Option (String × List Char)
  | e :: b :: rest =>
    if e = '\x1b' ∧ b = ']' then
      (oscScan rest).map (fun pr => (String.mk ('\x1b' :: ']' :: pr.1), pr.2))
    else none
  | _ => none

/-- Match a keypad-mode sequence: escape followed by `=` or `>`. -/
def matchKeypad : List Char → Option (String × List Char)
  | e :: k :: rest =>
    if e = '\x1b' ∧ (k = '=' ∨ k = '>') then some (String.mk [e, k], rest) else none
  | _ => none

/-- Fuel-indexed token scanner; the fuel bounds the number of tokens, and
`tokenize` supplies the input length, which always suffices because every
step consumes at least one character. -/
def tokenizeF : Nat → List Char → List Token
  | 0, _ => []
  | _ + 1, [] => []
  | f + 1, c :: cs =>
    match matchCsi (c :: cs) with
    | some (q, rest) => Token.csi q :: tokenizeF f rest
    | none =>
      match matchOsc (c :: cs) with
      | some (q, rest) => Token.osc q :: tokenizeF f rest
      | none =>
        match matchKeypad (c :: cs) with
        | some (q, rest) => Token.keypad q :: tokenizeF f rest
        | none =>
          if isCtrlChar c then Token.ctrl c :: tokenizeF f cs
          else if isTextChar c then
            Token.text (String.mk ((c :: cs).takeWhile isTextChar)) ::
              tokenizeF f ((c :: cs).dropWhile isTextChar)
          else tokenizeF f cs

/-- The token stream of an input, mirroring the `tokenRegex.exec` loop. -/
def tokenize (cs : List Char) : List Token :=
  tokenizeF cs.length cs

/-- A grid cell: one character plus its accumulated-escape-string style. -/
structure Cell where
  char : Char
  style : String
deriving Repr, DecidableEq

/-- The interpreter state: the grid of lines, the cursor, the current style,
and a flag recording whether an access to a missing current row occurred
(the situation in which the JavaScript source would throw). -/
structure TermState where
  linesBuffer : List (List Cell)
  cursorX : Int
  cursorY : Int
  currentStyle : String
  oob : Bool
deriving Repr, DecidableEq

/-- The reset SGR sequence. -/
def resetSeq : String := "\x1b[0m"

/-- Row lookup, `undefined` outside the array bounds. -/
def getRow (g : List (List Cell)) (y : Int) : Option (List Cell) :=
  if 0 ≤ y then g[y.toNat]? else none

/-- Row update at an existing index. -/
def setRow (g : List (List Cell)) (y : Int) (r : List Cell) : List (List Cell) :=
  if 0 ≤ y then g.set y.toNat r else g

/-- The value of `parseInt` on the first digit run of a sequence, if any
(`ansiCode.match` with a digit-run pattern). -/
def firstParam (s : String) : Option Nat :=
  let ds := (s.data.dropWhile (fun c => !c.isDigit)).takeWhile Char.isDigit
  if ds = [] then none else some (ds.foldl (fun n c => 10 * n + (c.toNat - 48)) 0)

/-- The last character of a sequence, deciding the `endsWith` dispatch. -/
def lastChar (s : String) : Option Char := s.data.getLast?

/-- The start index of `Array.prototype.splice` for a possibly negative
or too-large start argument. -/
def spliceStart (len : Nat) (x : Int) : Nat :=
  if x < 0 then ((len : Int) + x).toNat else min x.toNat len

/-- `line.splice(cursorX)`: drop every cell from the cursor column on. -/
def spliceDrop (line : List Cell) (x : Int) : List Cell :=
  line.take (spliceStart line.length x)

/-- `line.splice(cursorX, count)`: remove `count` cells at the cursor column. -/
def spliceRemove (line : List Cell) (x : Int) (n : Nat) : List Cell :=
  line.take (spliceStart line.length x) ++ line.drop (spliceStart line.length x + n)

/-- Blank every cell strictly before the cursor column (erase-in-line mode 1). -/
def blankBefore (line : List Cell) (x : Int) : List Cell :=
  match line with
  | [] => []
  | c :: rest => if 0 < x then ⟨' ', ""⟩ :: blankBefore rest (x - 1) else c :: rest

/-- Replace every row strictly after index `y` with an empty row
(erase-in-display mode 0). -/
def clearAfterRow (y : Int) (g : List (List Cell)) : List (List Cell) :=
  match g with
  | [] => []
  | r :: rest => (if y < 0 then [] else r) :: clearAfterRow (y - 1) rest

/-- `while (linesBuffer.length <= cursorY) linesBuffer.push([])`. -/
def extendRows (g : List (List Cell)) (y : Int) : List (List Cell) :=
  if (g.length : Int) ≤ y then g ++ List.replicate (y.toNat + 1 - g.length) [] else g

/-- Write one character at the cursor column: pad the row with blank cells
up to the column, then overwrite or append. -/
def writeChar (line : List Cell) (x : Int) (c : Char) (st : String) : List Cell :=
  let padded := line ++ List.replicate (x.toNat - line.length) ⟨' ', ""⟩
  if x.toNat < padded.length then padded.set x.toNat ⟨c, st⟩ else padded ++ [⟨c, st⟩]

/-- Write a run of characters left to right, advancing the cursor column. -/
def writeText (line : List Cell) (x : Int) (st : String) : List Char → List Cell × Int
  | [] => (line, x)
  | c :: cs => writeText (writeChar line x c st) (x + 1) st cs

/-- The grid after a newline moved the cursor to row `y`:
`if (!linesBuffer[cursorY]) linesBuffer[cursorY] = []`. -/
def newlineGrid (g : List (List Cell)) (y : Int) : List (List Cell) :=
  match getRow g y with
  | some _ => g
  | none => if y.toNat = g.length then g ++ [[]] else g

/-- Newline: next row, column 0, creating the row when it does not exist. -/
def applyNewline (s : TermState) : TermState :=
  { s with
    cursorY := s.cursorY + 1, cursorX := 0,
    linesBuffer := newlineGrid s.linesBuffer (s.cursorY + 1) }

/-- The CSI dispatch of the interpreter, by final letter. -/
def applyCsi (s : TermState) (q : String) : TermState :=
  if lastChar q = some 'm' then
    if q = resetSeq then { s with currentStyle := "" }
    else { s with currentStyle := s.currentStyle ++ q }
  else if lastChar q = some 'K' then
    if (firstParam q).getD 0 = 0 then
      match getRow s.linesBuffer s.cursorY with
      | none => { s with oob := true }
      | some line =>
        { s with linesBuffer := setRow s.linesBuffer s.cursorY (spliceDrop line s.cursorX) }
    else if (firstParam q).getD 0 = 1 then
      match getRow s.linesBuffer s.cursorY with
      | none => { s with oob := true }
      | some line =>
        { s with linesBuffer := setRow s.linesBuffer s.cursorY (blankBefore line s.cursorX) }
    else if (firstParam q).getD 0 = 2 then
      { s with linesBuffer := setRow s.linesBuffer s.cursorY [] }
    else s
  else if lastChar q = some 'J' then
    if (firstParam q).getD 0 = 0 then
      match getRow s.linesBuffer s.cursorY with
      | none => { s with oob := true }
      | some line =>
        { s with linesBuffer :=
            clearAfterRow s.cursorY (setRow s.linesBuffer s.cursorY (spliceDrop line s.cursorX)) }
    else if (firstParam q).getD 0 = 2 then
      { s with linesBuffer := [[]], cursorX := 0, cursorY := 0 }
    else s
  else if lastChar q = some 'P' then
    match getRow s.linesBuffer s.cursorY with
    | none => { s with oob := true }
    | some line =>
      { s with
        linesBuffer :=
          setRow s.linesBuffer s.cursorY (spliceRemove line s.cursorX ((firstParam q).getD 1)) }
  else if lastChar q = some 'A' then
    { s with cursorY := max 0 (s.cursorY - ((firstParam q).getD 1 : Nat)) }
  else if lastChar q = some 'B' then
    { s with
      cursorY := s.cursorY + ((firstParam q).getD 1 : Nat),
      linesBuffer := extendRows s.linesBuffer (s.cursorY + ((firstParam q).getD 1 : Nat)) }
  else if lastChar q = some 'D' then
    { s with cursorX := max 0 (s.cursorX - ((firstParam q).getD 1 : Nat)) }
  else if lastChar q = some 'C' then
    { s with cursorX := s.cursorX + ((firstParam q).getD 1 : Nat) }
  else s

/-- Text-run handler: write every character of the run at the cursor. -/
def applyText (s : TermState) (t : String) : TermState :=
  match getRow s.linesBuffer s.cursorY with
  | none => { s with oob := true }
  | some line =>
    { s with
      linesBuffer := setRow s.linesBuffer s.cursorY (writeText line s.cursorX s.currentStyle t.data).1,
      cursorX := (writeText line s.cursorX s.currentStyle t.data).2 }

/-- One interpreter step, dispatching on the token kind. -/
def step (s : TermState) : Token → TermState
  | .osc _ => s
  | .keypad _ => s
  | .ctrl c =>
    if c = '\n' then applyNewline s
    else if c = '\r' then { s with cursorX := 0 }
    else if c = '\x08' then { s with cursorX := max 0 (s.cursorX - 1) }
    else s
  | .csi q => applyCsi s q
  | .text t => applyText s t

/-- Run the interpreter over a token list. -/
def runTokens (s : TermState) (ts : List Token) : TermState :=
  ts.foldl step s

/-- A fresh parse pass starts with one empty row and the cursor at the origin. -/
def initState : TermState :=
  { linesBuffer := [[]], cursorX := 0, cursorY := 0, currentStyle := "", oob := false }

/-- Tokenize and interpret a character list. -/
def interpretChars (cs : List Char) : TermState :=
  runTokens initState (tokenize cs)

/-- Tokenize and interpret an input string (the state-building part of
`getAnsiHtml`). -/
def interpret (text : String) : TermState :=
  interpretChars text.data

/-- A style run: a maximal group of adjacent cells sharing one style. -/
structure Run where
  text : List Char
  style : String
deriving Repr, DecidableEq

/-- Grouping loop of the renderer: `st` and `txt` are the open span's
accumulated style and text, flushed whenever the style changes. -/
def lineRunsFrom (st : String) (txt : List Char) : List Cell → List Run
  | [] => [⟨txt, st⟩]
  | c :: rest =>
    if c.style = st then lineRunsFrom st (txt ++ [c.char]) rest
    else ⟨txt, st⟩ :: lineRunsFrom c.style [c.char] rest

/-- The runs of one grid row (the span-building loop of `getAnsiHtml`);
an empty row produces no span. -/
def lineRuns : List Cell → List Run
  | [] => []
  | c :: rest => lineRunsFrom c.style [c.char] rest

/-- `style.replace(/\x1b/g, '\\x1b')`: escape form stored in `data-ansi`. -/
def escapeAnsi : List Char → List Char
  | [] => []
  | c :: rest =>
    if c = '\x1b' then '\\' :: 'x' :: '1' :: 'b' :: escapeAnsi rest
    else c :: escapeAnsi rest

/-- `dataAnsi.replace(/\\x1b/g, '\x1b')`: decode the `data-ansi` attribute. -/
def unescapeAnsi : List Char → List Char
  | [] => []
  | c :: x :: y :: z :: rest' =>
    if c = '\\' ∧ x = 'x' ∧ y = '1' ∧ z = 'b' then '\x1b' :: unescapeAnsi rest'
    else c :: unescapeAnsi (x :: y :: z :: rest')
  | c :: rest => c :: unescapeAnsi rest

/-- The structured document nodes exchanged with the webview DOM: styled
spans (carrying the escaped round-trip tag in `data-ansi`), line breaks,
plain text nodes, and other elements with children. -/
inductive HNode where
  | span (dataAnsi : Option (List Char)) (innerText : List Char)
  | br
  | textNode (content : List Char)
  | element (children : List HNode)
deriving Repr

/-- The span emitted for one run: `data-ansi` is present exactly for a
non-empty style and holds its escaped form. -/
def runNode (r : Run) : HNode :=
  .span (if r.style = "" then none else some (escapeAnsi r.style.data)) r.text

/-- The children of one rendered line `div`: the spans of the row's runs,
or a lone `<br>` placeholder when the row is empty. -/
def lineNodes (row : List Cell) : List HNode :=
  match (lineRuns row).map runNode with
  | [] => [.br]
  | ns => ns

/-- The rendered document: one line of nodes per grid row. -/
def renderDoc (g : List (List Cell)) : List (List HNode) :=
  g.map lineNodes

/-- The full render pipeline: parse the raw text, render the grid. -/
def getAnsiHtml (text : String) : List (List HNode) :=
  renderDoc (interpret text).linesBuffer

mutual

/-- `processNode` of the webview script, on one child node: a span with a
`data-ansi` tag contributes the decoded tag, its text, and a trailing reset;
a span without the tag only its text; `<br>` nothing; a text node its
content; any other element the result on its children. -/
def processNode : HNode → List Char
  | .span (some tag) txt => unescapeAnsi tag ++ txt ++ resetSeq.data
  | .span none txt => txt
  | .br => []
  | .textNode s => s
  | .element children => processChildren children

/-- The `childNodes.forEach` accumulation of `processNode`. -/
def processChildren : List HNode → List Char
  | [] => []
  | n :: ns => processNode n ++ processChildren ns

end

/-- `Array.prototype.join('\n')`. -/
def joinLines : List (List Char) → List Char
  | [] => []
  | [l] => l
  | l :: ls => l ++ '\n' :: joinLines ls

/-- `reconstructAnsi` of the webview script: process every line element and
join the results with newlines. -/
def reconstructAnsi (lines : List (List HNode)) : List Char :=
  joinLines (lines.map (fun line => processNode (.element line)))

/-! ### Scanner lemmas -/

theorem tokenizeF_nil : ∀ f, tokenizeF f [] = []
  | 0 => rfl
  | _ + 1 => rfl

theorem length_dropWhile_le (p : Char → Bool) : ∀ l : List Char, (l.dropWhile p).length ≤ l.length := by
  intro l
  induction l with
  | nil => simp
  | cons c cs ih =>
    by_cases h : p c
    · rw [List.dropWhile_cons_of_pos h]; exact Nat.le_succ_of_le ih
    · rw [List.dropWhile_cons_of_neg h]

theorem matchCsi_sound {l : List Char} {q : String} {rest : List Char}
    (h : matchCsi l = some (q, rest)) :
    ∃ ps c, (∀ a ∈ ps, isCsiParam a = true) ∧ isFinalLetter c = true ∧
      q.data = '\x1b' :: '[' :: (ps ++ [c]) ∧ l = '\x1b' :: '[' :: (ps ++ c :: rest) := by
  match l with
  | [] => simp [matchCsi] at h
  | [e] => simp [matchCsi] at h
  | e :: b :: tl =>
    simp only [matchCsi] at h
    split at h
    · next hp =>
      obtain ⟨he, hb⟩ := hp
      subst he; subst hb
      split at h
      · next c rest' hd =>
        split at h
        · next hfin =>
          simp only [Option.some.injEq, Prod.mk.injEq] at h
          obtain ⟨hq, hr⟩ := h
          refine ⟨tl.takeWhile isCsiParam, c, fun a ha => List.mem_takeWhile_imp ha, hfin, ?_, ?_⟩
          · rw [← hq]
          · subst hr
            have := List.takeWhile_append_dropWhile (p := isCsiParam) (l := tl)
            rw [hd] at this
            rw [this]
        · exact absurd h (by simp)
      · exact absurd h (by simp)
    · exact absurd h (by simp)

theorem oscScan_sound : ∀ {l p rest : List Char}, oscScan l = some (p, rest) →
    l = p ++ rest ∧ p ≠ [] := by
  intro l
  induction l with
  | nil => intro p rest h; simp [oscScan] at h
  | cons c cs ih =>
    intro p rest h
    simp only [oscScan] at h
    split at h
    · next hc =>
      subst hc
      simp only [Option.some.injEq, Prod.mk.injEq] at h
      obtain ⟨hp, hr⟩ := h
      subst hr; simp [← hp]
    · split at h
      · next hc =>
        obtain ⟨he, hh⟩ := hc
        subst he
        simp only [Option.some.injEq, Prod.mk.injEq] at h
        obtain ⟨hp, hr⟩ := h
        match cs, hh with
        | _ :: cs', hh =>
          simp only [List.head?_cons, Option.some.injEq] at hh
          subst hh
          subst hr
          simp [← hp]
      · split at h
        · next =>
          match hsc : oscScan cs with
          | none => rw [hsc] at h; simp at h
          | some (p', rest') =>
            rw [hsc] at h
            simp only [Option.map_some', Option.some.injEq, Prod.mk.injEq] at h
            obtain ⟨hp, hr⟩ := h
            obtain ⟨hcs, -⟩ := ih hsc
            subst hr
            simp [← hp, hcs]
        · simp at h

theorem matchOsc_sound {l : List Char} {q : String} {rest : List Char}
    (h : matchOsc l = some (q, rest)) :
    ∃ p, p ≠ [] ∧ q.data = '\x1b' :: ']' :: p ∧ l = '\x1b' :: ']' :: (p ++ rest) := by
  match l with
  | [] => simp [matchOsc] at h
  | [e] => simp [matchOsc] at h
  | e :: b :: tl =>
    simp only [matchOsc] at h
    split at h
    · next hp =>
      obtain ⟨he, hb⟩ := hp
      subst he; subst hb
      match hsc : oscScan tl with
      | none => rw [hsc] at h; simp at h
      | some (p', rest') =>
        rw [hsc] at h
        simp only [Option.map_some', Option.some.injEq, Prod.mk.injEq] at h
        obtain ⟨hq, hr⟩ := h
        obtain ⟨htl, hne⟩ := oscScan_sound hsc
        subst hr
        exact ⟨p', hne, by rw [← hq], by rw [htl]⟩
    · exact absurd h (by simp)

theorem matchKeypad_sound {l : List Char} {q : String} {rest : List Char}
    (h : matchKeypad l = some (q, rest)) :
    ∃ k, (k = '=' ∨ k = '>') ∧ q.data = ['\x1b', k] ∧ l = '\x1b' :: k :: rest := by
  match l with
  | [] => simp [matchKeypad] at h
  | [e] => simp [matchKeypad] at h
  | e :: b :: tl =>
    simp only [matchKeypad] at h
    split at h
    · next hp =>
      obtain ⟨he, hb⟩ := hp
      subst he
      simp only [Option.some.injEq, Prod.mk.injEq] at h
      obtain ⟨hq, hr⟩ := h
      subst hr
      exact ⟨b, hb, by rw [← hq], rfl⟩
    · exact absurd h (by simp)

theorem matchCsi_length {l : List Char} {q : String} {rest : List Char}
    (h : matchCsi l = some (q, rest)) : rest.length < l.length := by
  obtain ⟨ps, c, -, -, -, hl⟩ := matchCsi_sound h
  subst hl; simp; omega

theorem matchOsc_length {l : List Char} {q : String} {rest : List Char}
    (h : matchOsc l = some (q, rest)) : rest.length < l.length := by
  obtain ⟨p, hne, -, hl⟩ := matchOsc_sound h
  subst hl
  have : 0 < p.length := List.length_pos.mpr hne
  simp; omega

theorem matchKeypad_length {l : List Char} {q : String} {rest : List Char}
    (h : matchKeypad l = some (q, rest)) : rest.length < l.length := by
  obtain ⟨k, -, -, hl⟩ := matchKeypad_sound h
  subst hl; simp; omega

theorem tokenizeF_stable : ∀ (n : Nat) (cs : List Char) (f g : Nat),
    cs.length ≤ n → cs.length ≤ f → cs.length ≤ g → tokenizeF f cs = tokenizeF g cs := by
  intro n
  induction n with
  | zero =>
    intro cs f g h1 _ _
    have : cs = [] := List.length_eq_zero.mp (Nat.le_zero.mp h1)
    subst this
    rw [tokenizeF_nil, tokenizeF_nil]
  | succ n ih =>
    intro cs f g h1 hf hg
    match cs with
    | [] => rw [tokenizeF_nil, tokenizeF_nil]
    | c :: cs' =>
      obtain ⟨f', rfl⟩ : ∃ f', f = f' + 1 := ⟨f - 1, by simp at hf; omega⟩
      obtain ⟨g', rfl⟩ : ∃ g', g = g' + 1 := ⟨g - 1, by simp at hg; omega⟩
      simp only [List.length_cons] at h1 hf hg
      simp only [tokenizeF]
      cases hc : matchCsi (c :: cs') with
      | some pr =>
        obtain ⟨q, rest⟩ := pr
        have hlen := matchCsi_length hc
        simp only [List.length_cons] at hlen
        dsimp only
        rw [ih rest f' g' (by omega) (by omega) (by omega)]
      | none =>
        cases ho : matchOsc (c :: cs') with
        | some pr =>
          obtain ⟨q, rest⟩ := pr
          have hlen := matchOsc_length ho
          simp only [List.length_cons] at hlen
          dsimp only
          rw [ih rest f' g' (by omega) (by omega) (by omega)]
        | none =>
          cases hk : matchKeypad (c :: cs') with
          | some pr =>
            obtain ⟨q, rest⟩ := pr
            have hlen := matchKeypad_length hk
            simp only [List.length_cons] at hlen
            dsimp only
            rw [ih rest f' g' (by omega) (by omega) (by omega)]
          | none =>
            by_cases hctrl : isCtrlChar c
            · simp only [hctrl, if_true]
              rw [ih cs' f' g' (by omega) (by omega) (by omega)]
            · simp only [hctrl, if_false, Bool.false_eq_true]
              by_cases htext : isTextChar c
              · simp only [htext, if_true]
                have hlen : ((c :: cs').dropWhile isTextChar).length ≤ cs'.length := by
                  rw [List.dropWhile_cons_of_pos htext]
                  exact length_dropWhile_le _ _
                rw [ih _ f' g' (by omega) (by omega) (by omega)]
              · simp only [htext, if_false, Bool.false_eq_true]
                rw [ih cs' f' g' (by omega) (by omega) (by omega)]

theorem tokenizeF_eq_tokenize {cs : List Char} {f : Nat} (hf : cs.length ≤ f) :
    tokenizeF f cs = tokenize cs :=
  tokenizeF_stable cs.length cs f cs.length Nat.le.refl hf Nat.le.refl

theorem tokenize_cons_csi {c : Char} {cs : List Char} {q : String} {rest : List Char}
    (h : matchCsi (c :: cs) = some (q, rest)) :
    tokenize (c :: cs) = Token.csi q :: tokenize rest := by
  have hlen := matchCsi_length h
  simp only [List.length_cons] at hlen
  show tokenizeF (cs.length + 1) (c :: cs) = _
  simp only [tokenizeF, h]
  rw [tokenizeF_eq_tokenize (by omega)]

theorem tokenize_cons_osc {c : Char} {cs : List Char} {q : String} {rest : List Char}
    (hc : matchCsi (c :: cs) = none) (h : matchOsc (c :: cs) = some (q, rest)) :
    tokenize (c :: cs) = Token.osc q :: tokenize rest := by
  have hlen := matchOsc_length h
  simp only [List.length_cons] at hlen
  show tokenizeF (cs.length + 1) (c :: cs) = _
  simp only [tokenizeF, hc, h]
  rw [tokenizeF_eq_tokenize (by omega)]

theorem matchCsi_cons_ne {c : Char} (cs : List Char) (hc : c ≠ '\x1b') :
    matchCsi (c :: cs) = none := by
  match cs with
  | [] => rfl
  | d :: tl => simp [matchCsi, hc]

theorem matchOsc_cons_ne {c : Char} (cs : List Char) (hc : c ≠ '\x1b') :
    matchOsc (c :: cs) = none := by
  match cs with
  | [] => rfl
  | d :: tl => simp [matchOsc, hc]

theorem matchKeypad_cons_ne {c : Char} (cs : List Char) (hc : c ≠ '\x1b') :
    matchKeypad (c :: cs) = none := by
  match cs with
  | [] => rfl
  | d :: tl => simp [matchKeypad, hc]

theorem isTextChar_ne_esc {c : Char} (h : isTextChar c = true) : c ≠ '\x1b' := by
  simp [isTextChar] at h
  exact h.1.1.1

theorem isCtrlChar_ne_esc {c : Char} (h : isCtrlChar c = true) : c ≠ '\x1b' := by
  simp [isCtrlChar] at h
  rcases h with (h | h) | h <;> simp [h]

theorem isCtrlChar_not_text {c : Char} (h : isCtrlChar c = true) : isTextChar c = false := by
  simp [isCtrlChar] at h
  rcases h with (h | h) | h <;> simp [isTextChar, h]

theorem tokenize_cons_ctrl {c : Char} (cs : List Char) (h : isCtrlChar c = true) :
    tokenize (c :: cs) = Token.ctrl c :: tokenize cs := by
  have hne := isCtrlChar_ne_esc h
  show tokenizeF (cs.length + 1) (c :: cs) = _
  simp only [tokenizeF, matchCsi_cons_ne cs hne, matchOsc_cons_ne cs hne,
    matchKeypad_cons_ne cs hne, h, if_true]
  rfl

theorem takeWhile_all_append {p : Char → Bool} :
    ∀ (t rest : List Char), (∀ c ∈ t, p c = true) → (∀ c, rest.head? = some c → p c = false) →
      (t ++ rest).takeWhile p = t ∧ (t ++ rest).dropWhile p = rest := by
  intro t
  induction t with
  | nil =>
    intro rest _ hrest
    match rest with
    | [] => simp
    | c :: rest' =>
      have := hrest c rfl
      simp [List.takeWhile_cons, List.dropWhile_cons, this]
  | cons a t' ih =>
    intro rest hall hrest
    have ha : p a = true := hall a (List.mem_cons_self a t')
    obtain ⟨h1, h2⟩ := ih rest (fun c hc => hall c (List.mem_cons_of_mem a hc)) hrest
    simp [List.takeWhile_cons, List.dropWhile_cons, ha, h1, h2]

theorem tokenize_text_run {t rest : List Char} (ht : t ≠ [])
    (hall : ∀ c ∈ t, isTextChar c = true)
    (hrest : ∀ c, rest.head? = some c → isTextChar c = false) :
    tokenize (t ++ rest) = Token.text (String.mk t) :: tokenize rest := by
  match t, ht with
  | c :: t', _ =>
    have hc : isTextChar c = true := hall c (List.mem_cons_self c t')
    have hne := isTextChar_ne_esc hc
    have hctrl : isCtrlChar c = false := by
      simp [isTextChar] at hc
      simp [isCtrlChar, hc.1.1.2, hc.1.2, hc.2]
    obtain ⟨htake, hdrop⟩ := takeWhile_all_append (c :: t') rest hall hrest
    show tokenizeF ((c :: t' ++ rest).length) (c :: t' ++ rest) = _
    have hlen : (c :: t' ++ rest).length = (t' ++ rest).length + 1 := by simp
    rw [hlen]
    simp only [tokenizeF, matchCsi_cons_ne _ hne, matchOsc_cons_ne _ hne,
      matchKeypad_cons_ne _ hne, hctrl, hc, if_false, if_true, Bool.false_eq_true,
      List.append_eq]
    rw [List.cons_append] at htake hdrop
    rw [htake, hdrop]
    rw [tokenizeF_eq_tokenize (by simp)]

/-! ### Style-string structure -/

/-- A single SGR sequence other than the reset: the shape of everything the
interpreter ever appends to the current style. -/
def ValidStyleSeq (q : String) : Prop :=
  ∃ ps, q.data = '\x1b' :: '[' :: (ps ++ ['m']) ∧ (∀ a ∈ ps, isCsiParam a = true) ∧
    q ≠ resetSeq

/-- An accumulated style string: a concatenation of non-reset SGR sequences. -/
def ValidStyle (st : String) : Prop :=
  ∃ qs : List String, st.data = (qs.map String.data).flatten ∧ ∀ q ∈ qs, ValidStyleSeq q

theorem validStyle_empty : ValidStyle "" := ⟨[], rfl, by simp⟩

theorem validStyle_append {st q : String} (h : ValidStyle st) (hq : ValidStyleSeq q) :
    ValidStyle (st ++ q) := by
  obtain ⟨qs, hdata, hall⟩ := h
  refine ⟨qs ++ [q], ?_, ?_⟩
  · rw [String.data_append, hdata]; simp
  · intro r hr
    rcases List.mem_append.mp hr with h | h
    · exact hall r h
    · simp at h; subst h; exact hq

theorem matchCsi_of_seq {ps : List Char} (hps : ∀ a ∈ ps, isCsiParam a = true)
    (rest : List Char) :
    matchCsi ('\x1b' :: '[' :: (ps ++ 'm' :: rest)) =
      some (String.mk ('\x1b' :: '[' :: (ps ++ ['m'])), rest) := by
  have hm : isCsiParam 'm' = false := by decide
  obtain ⟨htake, hdrop⟩ :=
    takeWhile_all_append (p := isCsiParam) ps ('m' :: rest) hps
      (fun c hc => by simp at hc; subst hc; exact hm)
  simp only [matchCsi, if_pos (And.intro rfl rfl)]
  rw [hdrop, htake]
  simp [isFinalLetter]

theorem tokenize_seq {q : String} {ps : List Char} (hq : q.data = '\x1b' :: '[' :: (ps ++ ['m']))
    (hps : ∀ a ∈ ps, isCsiParam a = true) (rest : List Char) :
    tokenize (q.data ++ rest) = Token.csi q :: tokenize rest := by
  rw [hq]
  have := matchCsi_of_seq hps rest
  have heq : '\x1b' :: '[' :: (ps ++ ['m']) ++ rest = '\x1b' :: '[' :: (ps ++ 'm' :: rest) := by
    simp
  rw [heq]
  rw [tokenize_cons_csi this]
  have : String.mk ('\x1b' :: '[' :: (ps ++ ['m'])) = q := String.ext hq.symm
  rw [this]

theorem resetSeq_data : resetSeq.data = '\x1b' :: '[' :: (['0'] ++ ['m']) := rfl

theorem tokenize_reset (rest : List Char) :
    tokenize (resetSeq.data ++ rest) = Token.csi resetSeq :: tokenize rest :=
  tokenize_seq resetSeq_data (by decide) rest

theorem tokenize_style {st : String} (h : ValidStyle st) (rest : List Char) :
    ∃ qs : List String, st.data = (qs.map String.data).flatten ∧ (∀ q ∈ qs, ValidStyleSeq q) ∧
      tokenize (st.data ++ rest) = (qs.map Token.csi) ++ tokenize rest := by
  obtain ⟨qs, hdata, hall⟩ := h
  refine ⟨qs, hdata, hall, ?_⟩
  rw [hdata]
  clear hdata
  induction qs with
  | nil => simp
  | cons q qs' ih =>
    have hq := hall q (List.mem_cons_self q qs')
    obtain ⟨ps, hqd, hps, -⟩ := hq
    have hrec := ih (fun r hr => hall r (List.mem_cons_of_mem q hr))
    simp only [List.map_cons, List.flatten_cons, List.append_assoc]
    rw [tokenize_seq hqd hps, hrec]
    simp

/-! ### Cursor and bounds invariants -/

/-- The cursor stays non-negative, points at an existing row, and no
out-of-bounds row access has happened. -/
def BoundsInv (s : TermState) : Prop :=
  0 ≤ s.cursorX ∧ 0 ≤ s.cursorY ∧ s.cursorY.toNat < s.linesBuffer.length ∧ s.oob = false

theorem getRow_eq_some {g : List (List Cell)} {y : Int} (hy : 0 ≤ y)
    (hlt : y.toNat < g.length) : getRow g y = some (g.get ⟨y.toNat, hlt⟩) := by
  simp [getRow, hy, List.getElem?_eq_getElem hlt]

theorem getRow_some_bounds {g : List (List Cell)} {y : Int} {r : List Cell}
    (h : getRow g y = some r) : 0 ≤ y ∧ y.toNat < g.length := by
  by_cases hy : 0 ≤ y
  · refine ⟨hy, ?_⟩
    simp only [getRow, if_pos hy] at h
    exact (List.getElem?_eq_some.mp h).1
  · simp [getRow, hy] at h

theorem length_setRow (g : List (List Cell)) (y : Int) (r : List Cell) :
    (setRow g y r).length = g.length := by
  unfold setRow
  split <;> simp

theorem length_clearAfterRow : ∀ (g : List (List Cell)) (y : Int),
    (clearAfterRow y g).length = g.length := by
  intro g
  induction g with
  | nil => intro y; rfl
  | cons r rest ih => intro y; simp [clearAfterRow, ih]

theorem length_extendRows {g : List (List Cell)} {y : Int} (hy : 0 ≤ y) :
    (extendRows g y).length = max g.length (y.toNat + 1) := by
  unfold extendRows
  split
  · next h =>
    have : g.length ≤ y.toNat := by omega
    simp; omega
  · next h =>
    have : y < (g.length : Int) := by omega
    have : y.toNat < g.length := by omega
    simp; omega

theorem writeText_snd (line : List Cell) (x : Int) (st : String) :
    ∀ cs : List Char, (writeText line x st cs).2 = x + cs.length := by
  intro cs
  induction cs generalizing line x with
  | nil => simp [writeText]
  | cons c cs' ih =>
    simp only [writeText, ih, List.length_cons]
    omega

theorem applyNewline_bounds {s : TermState} (h : BoundsInv s) : BoundsInv (applyNewline s) := by
  obtain ⟨hx, hy, hlt, hoob⟩ := h
  unfold BoundsInv applyNewline newlineGrid
  dsimp only
  cases hrow : getRow s.linesBuffer (s.cursorY + 1) with
  | some r =>
    obtain ⟨h1, h2⟩ := getRow_some_bounds hrow
    exact ⟨le_refl 0, by omega, h2, hoob⟩
  | none =>
    by_cases heq : (s.cursorY + 1).toNat = s.linesBuffer.length
    · refine ⟨le_refl 0, by omega, ?_, hoob⟩
      rw [if_pos heq]
      simp
      omega
    · exfalso
      have hlt2 : (s.cursorY + 1).toNat < s.linesBuffer.length := by omega
      rw [getRow_eq_some (by omega) hlt2] at hrow
      exact Option.noConfusion hrow

theorem applyCsi_bounds {s : TermState} (h : BoundsInv s) (q : String) :
    BoundsInv (applyCsi s q) := by
  obtain ⟨hx, hy, hlt, hoob⟩ := h
  have hrow := getRow_eq_some hy hlt
  unfold BoundsInv applyCsi
  split
  · split <;> exact ⟨hx, hy, hlt, hoob⟩
  · split
    · rw [hrow]
      dsimp only
      split
      · exact ⟨hx, hy, by rw [length_setRow]; exact hlt, hoob⟩
      · split
        · exact ⟨hx, hy, by rw [length_setRow]; exact hlt, hoob⟩
        · split
          · exact ⟨hx, hy, by rw [length_setRow]; exact hlt, hoob⟩
          · exact ⟨hx, hy, hlt, hoob⟩
    · split
      · rw [hrow]
        dsimp only
        split
        · refine ⟨hx, hy, ?_, hoob⟩
          rw [length_clearAfterRow, length_setRow]
          exact hlt
        · split
          · exact ⟨le_refl 0, le_refl 0, by simp, hoob⟩
          · exact ⟨hx, hy, hlt, hoob⟩
      · split
        · rw [hrow]
          dsimp only
          exact ⟨hx, hy, by rw [length_setRow]; exact hlt, hoob⟩
        · split
          · refine ⟨hx, le_max_left 0 _, ?_, hoob⟩
            dsimp only
            have h1 : max 0 (s.cursorY - ((firstParam q).getD 1 : Nat)) ≤ s.cursorY :=
              max_le hy (by omega)
            have h2 := Int.toNat_le_toNat h1
            omega
          · split
            · dsimp only
              refine ⟨hx, by omega, ?_, hoob⟩
              rw [length_extendRows (by omega)]
              omega
            · split
              · exact ⟨le_max_left 0 _, hy, hlt, hoob⟩
              · split
                · dsimp only
                  exact ⟨by omega, hy, hlt, hoob⟩
                · exact ⟨hx, hy, hlt, hoob⟩

theorem applyText_bounds {s : TermState} (h : BoundsInv s) (t : String) :
    BoundsInv (applyText s t) := by
  obtain ⟨hx, hy, hlt, hoob⟩ := h
  unfold BoundsInv applyText
  rw [getRow_eq_some hy hlt]
  dsimp only
  refine ⟨?_, hy, by rw [length_setRow]; exact hlt, hoob⟩
  rw [writeText_snd]
  omega

theorem step_bounds {s : TermState} (h : BoundsInv s) (t : Token) : BoundsInv (step s t) := by
  cases t with
  | osc q => exact h
  | keypad q => exact h
  | csi q => exact applyCsi_bounds h q
  | text t => exact applyText_bounds h t
  | ctrl c =>
    obtain ⟨hx, hy, hlt, hoob⟩ := h
    simp only [step]
    split
    · exact applyNewline_bounds ⟨hx, hy, hlt, hoob⟩
    · split
      · exact ⟨le_refl 0, hy, hlt, hoob⟩
      · split
        · exact ⟨le_max_left 0 _, hy, hlt, hoob⟩
        · exact ⟨hx, hy, hlt, hoob⟩

theorem runTokens_bounds {s : TermState} (h : BoundsInv s) (ts : List Token) :
    BoundsInv (runTokens s ts) := by
  induction ts generalizing s with
  | nil => exact h
  | cons t ts' ih => exact ih (step_bounds h t)

theorem interpretChars_bounds (cs : List Char) : BoundsInv (interpretChars cs) :=
  runTokens_bounds ⟨le_refl 0, le_refl 0, by simp [initState], rfl⟩ (tokenize cs)

/-! ### Content invariants: text-safe characters and valid styles -/

/-- The blank cell used for padding and erasing. -/
def blankCell : Cell := ⟨' ', ""⟩

/-- A cell whose character can appear in a text run and whose style is an
accumulated style string. -/
def SafeCell (c : Cell) : Prop := isTextChar c.char = true ∧ ValidStyle c.style

/-- Every cell of every row is safe. -/
def SafeGrid (g : List (List Cell)) : Prop := ∀ row ∈ g, ∀ c ∈ row, SafeCell c

/-- The whole interpreter state is content-safe. -/
def SafeState (s : TermState) : Prop := SafeGrid s.linesBuffer ∧ ValidStyle s.currentStyle

/-- What the scanner guarantees about each token it produces. -/
def TokenOK : Token → Prop
  | .csi q => ∃ ps fin, q.data = '\x1b' :: '[' :: (ps ++ [fin]) ∧
      (∀ a ∈ ps, isCsiParam a = true) ∧ isFinalLetter fin = true
  | .text t => ∀ c ∈ t.data, isTextChar c = true
  | _ => True

theorem blankCell_safe : SafeCell blankCell := ⟨by decide, validStyle_empty⟩

theorem tokenizeF_ok : ∀ (f : Nat) (cs : List Char) (t : Token), t ∈ tokenizeF f cs → TokenOK t := by
  intro f
  induction f with
  | zero => intro cs t h; simp [tokenizeF] at h
  | succ f ih =>
    intro cs t h
    match cs with
    | [] => simp [tokenizeF] at h
    | c :: cs' =>
      rw [tokenizeF] at h
      cases hc : matchCsi (c :: cs') with
      | some pr =>
        obtain ⟨q, rest⟩ := pr
        rw [hc] at h
        simp only [List.mem_cons] at h
        rcases h with h | h
        · subst h
          obtain ⟨ps, fin, hps, hfin, hq, -⟩ := matchCsi_sound hc
          exact ⟨ps, fin, hq, hps, hfin⟩
        · exact ih _ t h
      | none =>
        rw [hc] at h
        cases ho : matchOsc (c :: cs') with
        | some pr =>
          obtain ⟨q, rest⟩ := pr
          rw [ho] at h
          simp only [List.mem_cons] at h
          rcases h with h | h
          · subst h; trivial
          · exact ih _ t h
        | none =>
          rw [ho] at h
          cases hk : matchKeypad (c :: cs') with
          | some pr =>
            obtain ⟨q, rest⟩ := pr
            rw [hk] at h
            simp only [List.mem_cons] at h
            rcases h with h | h
            · subst h; trivial
            · exact ih _ t h
          | none =>
            rw [hk] at h
            by_cases hctrl : isCtrlChar c
            · rw [if_pos hctrl] at h
              simp only [List.mem_cons] at h
              rcases h with h | h
              · subst h; trivial
              · exact ih _ t h
            · rw [if_neg hctrl] at h
              by_cases htext : isTextChar c
              · rw [if_pos htext] at h
                simp only [List.mem_cons] at h
                rcases h with h | h
                · subst h
                  intro a ha
                  exact List.mem_takeWhile_imp ha
                · exact ih _ t h
              · rw [if_neg htext] at h
                exact ih _ t h

theorem tokenize_ok {cs : List Char} {t : Token} (h : t ∈ tokenize cs) : TokenOK t :=
  tokenizeF_ok cs.length cs t h

theorem mem_blankBefore {line : List Cell} {x : Int} {c : Cell}
    (h : c ∈ blankBefore line x) : c ∈ line ∨ c = blankCell := by
  induction line generalizing x with
  | nil => simp [blankBefore] at h
  | cons a rest ih =>
    rw [blankBefore] at h
    split at h
    · rcases List.mem_cons.mp h with h | h
      · exact Or.inr h
      · rcases ih h with h | h
        · exact Or.inl (List.mem_cons_of_mem a h)
        · exact Or.inr h
    · exact Or.inl h

theorem mem_writeChar {line : List Cell} {x : Int} {ch : Char} {st : String} {c : Cell}
    (h : c ∈ writeChar line x ch st) : c ∈ line ∨ c = blankCell ∨ c = ⟨ch, st⟩ := by
  unfold writeChar at h
  dsimp only at h
  split at h
  · rcases List.mem_or_eq_of_mem_set h with h | h
    · rcases List.mem_append.mp h with h | h
      · exact Or.inl h
      · exact Or.inr (Or.inl (List.eq_of_mem_replicate h))
    · exact Or.inr (Or.inr h)
  · rcases List.mem_append.mp h with h | h
    · rcases List.mem_append.mp h with h | h
      · exact Or.inl h
      · exact Or.inr (Or.inl (List.eq_of_mem_replicate h))
    · simp at h
      exact Or.inr (Or.inr h)

theorem mem_writeText {st : String} :
    ∀ (cs : List Char) (line : List Cell) (x : Int) (c : Cell),
      c ∈ (writeText line x st cs).1 →
      c ∈ line ∨ c = blankCell ∨ ∃ ch ∈ cs, c = ⟨ch, st⟩ := by
  intro cs
  induction cs with
  | nil => intro line x c h; exact Or.inl h
  | cons a cs' ih =>
    intro line x c h
    rw [writeText] at h
    rcases ih (writeChar line x a st) (x + 1) c h with h | h | h
    · rcases mem_writeChar h with h | h | h
      · exact Or.inl h
      · exact Or.inr (Or.inl h)
      · exact Or.inr (Or.inr ⟨a, List.mem_cons_self a cs', h⟩)
    · exact Or.inr (Or.inl h)
    · obtain ⟨ch, hch, hc⟩ := h
      exact Or.inr (Or.inr ⟨ch, List.mem_cons_of_mem a hch, hc⟩)

theorem mem_setRow {g : List (List Cell)} {y : Int} {r row : List Cell}
    (h : row ∈ setRow g y r) : row ∈ g ∨ row = r := by
  unfold setRow at h
  split at h
  · exact List.mem_or_eq_of_mem_set h
  · exact Or.inl h

theorem mem_clearAfterRow : ∀ (g : List (List Cell)) (y : Int) {row : List Cell},
    row ∈ clearAfterRow y g → row ∈ g ∨ row = [] := by
  intro g
  induction g with
  | nil => intro y row h; simp [clearAfterRow] at h
  | cons r rest ih =>
    intro y row h
    rw [clearAfterRow] at h
    rcases List.mem_cons.mp h with h | h
    · by_cases hy : y < 0
      · rw [if_pos hy] at h; exact Or.inr h
      · rw [if_neg hy] at h; exact Or.inl (h ▸ List.mem_cons_self r rest)
    · rcases ih (y - 1) h with h | h
      · exact Or.inl (List.mem_cons_of_mem r h)
      · exact Or.inr h

theorem mem_extendRows {g : List (List Cell)} {y : Int} {row : List Cell}
    (h : row ∈ extendRows g y) : row ∈ g ∨ row = [] := by
  unfold extendRows at h
  split at h
  · rcases List.mem_append.mp h with h | h
    · exact Or.inl h
    · exact Or.inr (List.eq_of_mem_replicate h)
  · exact Or.inl h

theorem mem_newlineGrid {g : List (List Cell)} {y : Int} {row : List Cell}
    (h : row ∈ newlineGrid g y) : row ∈ g ∨ row = [] := by
  unfold newlineGrid at h
  split at h
  · exact Or.inl h
  · split at h
    · rcases List.mem_append.mp h with h | h
      · exact Or.inl h
      · simp at h; exact Or.inr h
    · exact Or.inl h

theorem safeGrid_setRow {g : List (List Cell)} {y : Int} {r : List Cell}
    (hg : SafeGrid g) (hr : ∀ c ∈ r, SafeCell c) : SafeGrid (setRow g y r) := by
  intro row hrow c hc
  rcases mem_setRow hrow with h | h
  · exact hg row h c hc
  · exact hr c (h ▸ hc)

theorem safeRow_take {row : List Cell} (h : ∀ c ∈ row, SafeCell c) (n : Nat) :
    ∀ c ∈ row.take n, SafeCell c :=
  fun c hc => h c (List.mem_of_mem_take hc)

theorem lastChar_of_shape {q : String} {ps : List Char} {fin : Char}
    (hq : q.data = '\x1b' :: '[' :: (ps ++ [fin])) : lastChar q = some fin := by
  unfold lastChar
  rw [hq]
  have : '\x1b' :: '[' :: (ps ++ [fin]) = ('\x1b' :: '[' :: ps) ++ [fin] := by simp
  rw [this, List.getLast?_concat]

theorem rowOf_mem {s : TermState} {line : List Cell}
    (hrow : getRow s.linesBuffer s.cursorY = some line) : line ∈ s.linesBuffer := by
  obtain ⟨h0, hlt⟩ := getRow_some_bounds hrow
  rw [getRow_eq_some h0 hlt] at hrow
  injection hrow with hrow
  subst hrow
  exact List.get_mem _ _ _

theorem applyCsi_safe {s : TermState} (hs : SafeState s) {q : String}
    (hq : TokenOK (Token.csi q)) : SafeState (applyCsi s q) := by
  obtain ⟨hg, hst⟩ := hs
  obtain ⟨ps, fin, hshape, hps, hfin⟩ := hq
  unfold SafeState applyCsi
  split_ifs with h1 h2 h3 h4 h5 h6 h7 h8 h9 h10 h11 h12 h13 h14
  · exact ⟨hg, validStyle_empty⟩
  · refine ⟨hg, validStyle_append hst ?_⟩
    rw [lastChar_of_shape hshape] at h1
    have : fin = 'm' := by injection h1
    subst this
    exact ⟨ps, hshape, hps, h2⟩
  · split
    · exact ⟨hg, hst⟩
    · next line hrow =>
      refine ⟨safeGrid_setRow hg ?_, hst⟩
      intro c hc
      exact hg line (rowOf_mem hrow) c (List.mem_of_mem_take hc)
  · split
    · exact ⟨hg, hst⟩
    · next line hrow =>
      refine ⟨safeGrid_setRow hg ?_, hst⟩
      intro c hc
      rcases mem_blankBefore hc with h | h
      · exact hg line (rowOf_mem hrow) c h
      · exact h ▸ blankCell_safe
  · refine ⟨safeGrid_setRow hg ?_, hst⟩
    intro c hc
    simp at hc
  · exact ⟨hg, hst⟩
  · split
    · exact ⟨hg, hst⟩
    · next line hrow =>
      refine ⟨?_, hst⟩
      intro row hmem c hc
      rcases mem_clearAfterRow _ _ hmem with h | h
      · rcases mem_setRow h with h | h
        · exact hg row h c hc
        · subst h
          exact hg line (rowOf_mem hrow) c (List.mem_of_mem_take hc)
      · subst h; simp at hc
  · refine ⟨?_, hst⟩
    intro row hmem c hc
    simp at hmem
    subst hmem
    simp at hc
  · exact ⟨hg, hst⟩
  · split
    · exact ⟨hg, hst⟩
    · next line hrow =>
      refine ⟨safeGrid_setRow hg ?_, hst⟩
      intro c hc
      rcases List.mem_append.mp hc with h | h
      · exact hg line (rowOf_mem hrow) c (List.mem_of_mem_take h)
      · exact hg line (rowOf_mem hrow) c (List.mem_of_mem_drop h)
  · exact ⟨hg, hst⟩
  · refine ⟨?_, hst⟩
    intro row hmem c hc
    rcases mem_extendRows hmem with h | h
    · exact hg row h c hc
    · subst h; simp at hc
  · exact ⟨hg, hst⟩
  · exact ⟨hg, hst⟩
  · exact ⟨hg, hst⟩

theorem applyText_safe {s : TermState} (hs : SafeState s) {t : String}
    (ht : TokenOK (Token.text t)) : SafeState (applyText s t) := by
  obtain ⟨hg, hst⟩ := hs
  unfold SafeState applyText
  split
  · exact ⟨hg, hst⟩
  · next line hrow =>
    dsimp only
    refine ⟨safeGrid_setRow hg ?_, hst⟩
    intro c hc
    have hline : line ∈ s.linesBuffer := by
      obtain ⟨h0, hlt⟩ := getRow_some_bounds hrow
      rw [getRow_eq_some h0 hlt] at hrow
      injection hrow with hrow
      subst hrow
      exact List.getElem_mem hlt
    rcases mem_writeText t.data line s.cursorX c hc with h | h | h
    · exact hg line hline c h
    · exact h ▸ blankCell_safe
    · obtain ⟨ch, hch, hceq⟩ := h
      subst hceq
      exact ⟨ht ch hch, hst⟩

theorem step_safe {s : TermState} (hs : SafeState s) {t : Token} (ht : TokenOK t) :
    SafeState (step s t) := by
  obtain ⟨hg, hst⟩ := hs
  cases t with
  | osc q => exact ⟨hg, hst⟩
  | keypad q => exact ⟨hg, hst⟩
  | csi q => exact applyCsi_safe ⟨hg, hst⟩ ht
  | text t => exact applyText_safe ⟨hg, hst⟩ ht
  | ctrl c =>
    simp only [step]
    split
    · refine ⟨?_, hst⟩
      intro row hmem c' hc
      rcases mem_newlineGrid hmem with h | h
      · exact hg row h c' hc
      · subst h; simp at hc
    · split
      · exact ⟨hg, hst⟩
      · split
        · exact ⟨hg, hst⟩
        · exact ⟨hg, hst⟩

theorem runTokens_safe {s : TermState} (hs : SafeState s) {ts : List Token}
    (hts : ∀ t ∈ ts, TokenOK t) : SafeState (runTokens s ts) := by
  induction ts generalizing s with
  | nil => exact hs
  | cons t ts' ih =>
    exact ih (step_safe hs (hts t (List.mem_cons_self t ts')))
      (fun t' h => hts t' (List.mem_cons_of_mem t h))

theorem interpretChars_safe (cs : List Char) : SafeState (interpretChars cs) :=
  runTokens_safe ⟨fun row hr c hc => by simp [initState] at hr; subst hr; simp at hc,
    validStyle_empty⟩ (fun t ht => tokenize_ok ht)

/-! ### Renderer lemmas -/

/-- The cells represented by one run. -/
def cellsOf (r : Run) : List Cell := r.text.map (fun c => ⟨c, r.style⟩)

theorem lineRunsFrom_flatten (l : List Cell) : ∀ (st : String) (txt : List Char),
    ((lineRunsFrom st txt l).map cellsOf).flatten = txt.map (fun c => ⟨c, st⟩) ++ l := by
  induction l with
  | nil => intro st txt; simp [lineRunsFrom, cellsOf]
  | cons c rest ih =>
    intro st txt
    rw [lineRunsFrom]
    split
    · next hst =>
      rw [ih]
      simp
      cases c with
      | mk ch cst =>
        simp at hst
        rw [hst]
    · next hst =>
      simp only [List.map_cons, List.flatten_cons, cellsOf, ih]
      simp

theorem lineRuns_flatten (l : List Cell) :
    ((lineRuns l).map cellsOf).flatten = l := by
  match l with
  | [] => rfl
  | c :: rest =>
    rw [lineRuns, lineRunsFrom_flatten]
    simp

theorem lineRunsFrom_ne_nil (l : List Cell) : ∀ (st : String) (txt : List Char),
    txt ≠ [] → ∀ r ∈ lineRunsFrom st txt l, r.text ≠ [] := by
  induction l with
  | nil =>
    intro st txt ht r hr
    simp [lineRunsFrom] at hr
    subst hr
    exact ht
  | cons c rest ih =>
    intro st txt ht r hr
    rw [lineRunsFrom] at hr
    split at hr
    · exact ih st (txt ++ [c.char]) (by simp) r hr
    · rcases List.mem_cons.mp hr with h | h
      · subst h; exact ht
      · exact ih c.style [c.char] (by simp) r h

theorem lineRuns_ne_nil {l : List Cell} {r : Run} (hr : r ∈ lineRuns l) : r.text ≠ [] := by
  match l with
  | [] => simp [lineRuns] at hr
  | c :: rest => exact lineRunsFrom_ne_nil rest c.style [c.char] (by simp) r hr

theorem lineRunsFrom_props (P : String → Prop) (Q : Char → Prop) (l : List Cell) :
    ∀ (st : String) (txt : List Char), P st → (∀ c ∈ txt, Q c) →
      (∀ c ∈ l, P c.style ∧ Q c.char) →
      ∀ r ∈ lineRunsFrom st txt l, P r.style ∧ ∀ ch ∈ r.text, Q ch := by
  induction l with
  | nil =>
    intro st txt hst htxt _ r hr
    simp [lineRunsFrom] at hr
    subst hr
    exact ⟨hst, htxt⟩
  | cons c rest ih =>
    intro st txt hst htxt hl r hr
    rw [lineRunsFrom] at hr
    split at hr
    · refine ih st (txt ++ [c.char]) hst ?_ (fun d hd => hl d (List.mem_cons_of_mem c hd)) r hr
      intro d hd
      rcases List.mem_append.mp hd with h | h
      · exact htxt d h
      · simp at h
        subst h
        exact (hl c (List.mem_cons_self c rest)).2
    · rcases List.mem_cons.mp hr with h | h
      · subst h; exact ⟨hst, htxt⟩
      · refine ih c.style [c.char] (hl c (List.mem_cons_self c rest)).1 ?_
          (fun d hd => hl d (List.mem_cons_of_mem c hd)) r h
        intro d hd
        simp at hd
        subst hd
        exact (hl c (List.mem_cons_self c rest)).2

theorem lineRuns_props {P : String → Prop} {Q : Char → Prop} {l : List Cell}
    (hl : ∀ c ∈ l, P c.style ∧ Q c.char) :
    ∀ r ∈ lineRuns l, P r.style ∧ ∀ ch ∈ r.text, Q ch := by
  match l with
  | [] => intro r hr; simp [lineRuns] at hr
  | c :: rest =>
    intro r hr
    refine lineRunsFrom_props P Q rest c.style [c.char]
      (hl c (List.mem_cons_self c rest)).1 ?_
      (fun d hd => hl d (List.mem_cons_of_mem c hd)) r hr
    intro d hd
    simp at hd
    subst hd
    exact (hl c (List.mem_cons_self c rest)).2

theorem lineRunsFrom_head_style (l : List Cell) (st : String) (txt : List Char) :
    ∃ r rs, lineRunsFrom st txt l = r :: rs ∧ r.style = st := by
  match l with
  | [] => exact ⟨⟨txt, st⟩, [], rfl, rfl⟩
  | c :: rest =>
    rw [lineRunsFrom]
    split
    · exact lineRunsFrom_head_style rest st (txt ++ [c.char])
    · exact ⟨⟨txt, st⟩, _, rfl, rfl⟩

theorem lineRunsFrom_chain (l : List Cell) : ∀ (st : String) (txt : List Char),
    List.Chain' (fun a b => a.style ≠ b.style) (lineRunsFrom st txt l) := by
  induction l with
  | nil => intro st txt; simp [lineRunsFrom]
  | cons c rest ih =>
    intro st txt
    rw [lineRunsFrom]
    split
    · exact ih st (txt ++ [c.char])
    · next hst =>
      rw [List.chain'_cons']
      refine ⟨?_, ih c.style [c.char]⟩
      intro y hy
      obtain ⟨r, rs, heq, hr⟩ := lineRunsFrom_head_style rest c.style [c.char]
      rw [heq] at hy
      simp at hy
      subst hy
      rw [hr]
      exact fun hcon => hst (hcon ▸ rfl)

theorem lineRuns_chain (l : List Cell) :
    List.Chain' (fun a b => a.style ≠ b.style) (lineRuns l) := by
  match l with
  | [] => simp [lineRuns]
  | c :: rest => exact lineRunsFrom_chain rest c.style [c.char]

/-! ### Escape round-trip and the renderer-to-reconstructor bridge -/

theorem unescapeAnsi_cons_ne {c : Char} (hc : c ≠ '\\') (l : List Char) :
    unescapeAnsi (c :: l) = c :: unescapeAnsi l := by
  match l with
  | [] => rfl
  | [x] => rfl
  | [x, y] => rfl
  | x :: y :: z :: rest => simp [unescapeAnsi, hc]

theorem escapeAnsi_cons_esc (l : List Char) :
    escapeAnsi ('\x1b' :: l) = '\\' :: 'x' :: '1' :: 'b' :: escapeAnsi l := by
  simp [escapeAnsi]

theorem escapeAnsi_cons_ne {c : Char} (hc : c ≠ '\x1b') (l : List Char) :
    escapeAnsi (c :: l) = c :: escapeAnsi l := by
  simp [escapeAnsi, hc]

theorem unescape_escape : ∀ {l : List Char}, '\\' ∉ l → unescapeAnsi (escapeAnsi l) = l := by
  intro l
  induction l with
  | nil => intro _; rfl
  | cons c rest ih =>
    intro h
    have hbs : c ≠ '\\' := fun hc => h (hc ▸ List.mem_cons_self c rest)
    have hrest : '\\' ∉ rest := fun hr => h (List.mem_cons_of_mem c hr)
    by_cases hesc : c = '\x1b'
    · subst hesc
      rw [escapeAnsi_cons_esc]
      rw [show unescapeAnsi ('\\' :: 'x' :: '1' :: 'b' :: escapeAnsi rest)
            = '\x1b' :: unescapeAnsi (escapeAnsi rest) from by simp [unescapeAnsi]]
      rw [ih hrest]
    · rw [escapeAnsi_cons_ne hesc, unescapeAnsi_cons_ne hbs, ih hrest]

theorem isCsiParam_ne_bs {c : Char} (h : isCsiParam c = true) : c ≠ '\\' := by
  intro hc
  subst hc
  simp [isCsiParam] at h

theorem validStyleSeq_no_bs {q : String} (h : ValidStyleSeq q) : '\\' ∉ q.data := by
  obtain ⟨ps, hdata, hps, -⟩ := h
  rw [hdata]
  intro hmem
  simp at hmem
  exact isCsiParam_ne_bs (hps _ hmem) rfl

theorem validStyle_no_bs {st : String} (h : ValidStyle st) : '\\' ∉ st.data := by
  obtain ⟨qs, hdata, hall⟩ := h
  rw [hdata]
  intro hmem
  obtain ⟨l, hl, hcl⟩ := List.mem_flatten.mp hmem
  obtain ⟨q, hq, hql⟩ := List.mem_map.mp hl
  exact validStyleSeq_no_bs (hall q hq) (hql ▸ hcl)

/-- The characters one edited run contributes to the reconstructed stream. -/
def runChars (r : Run) : List Char :=
  if r.style = "" then r.text else r.style.data ++ r.text ++ resetSeq.data

/-- The characters of one reconstructed line. -/
def lineChars (runs : List Run) : List Char := (runs.map runChars).flatten

theorem processNode_runNode {r : Run} (hbs : '\\' ∉ r.style.data) :
    processNode (runNode r) = runChars r := by
  unfold runNode runChars
  split
  · simp [processNode]
  · simp only [processNode]
    rw [unescape_escape hbs]

theorem processChildren_spans (runs : List Run) (h : ∀ r ∈ runs, '\\' ∉ r.style.data) :
    processChildren (runs.map runNode) = lineChars runs := by
  induction runs with
  | nil => simp [processChildren, lineChars]
  | cons r rs ih =>
    simp only [List.map_cons, processChildren, lineChars, List.flatten_cons]
    rw [processNode_runNode (h r (List.mem_cons_self r rs)),
      ih (fun r' hr => h r' (List.mem_cons_of_mem r hr))]
    rfl

theorem processNode_lineNodes (row : List Cell) (h : ∀ r ∈ lineRuns row, '\\' ∉ r.style.data) :
    processNode (HNode.element (lineNodes row)) = lineChars (lineRuns row) := by
  unfold lineNodes
  cases hruns : lineRuns row with
  | nil => simp [processNode, processChildren, lineChars]
  | cons r rs =>
    simp only [List.map_cons]
    rw [show processNode (HNode.element (runNode r :: rs.map runNode))
          = processChildren (runNode r :: rs.map runNode) from by simp [processNode]]
    rw [show (runNode r :: rs.map runNode) = (r :: rs).map runNode from rfl]
    rw [processChildren_spans (r :: rs) (fun r' hr => h r' (hruns ▸ hr))]

theorem reconstruct_renderDoc {g : List (List Cell)} (h : SafeGrid g) :
    reconstructAnsi (renderDoc g) =
      joinLines (g.map (fun row => lineChars (lineRuns row))) := by
  unfold reconstructAnsi renderDoc
  rw [List.map_map]
  congr 1
  apply List.map_congr_left
  intro row hrow
  apply processNode_lineNodes
  intro r hr
  have := lineRuns_props (P := ValidStyle) (Q := fun c => isTextChar c = true)
    (l := row) (fun c hc => ⟨(h row hrow c hc).2, (h row hrow c hc).1⟩) r hr
  exact validStyle_no_bs this.1

/-! ### Re-parsing the reconstructed stream -/

/-- A run coming from a safe grid row: valid style, text-safe non-empty text. -/
def SafeRun (r : Run) : Prop :=
  ValidStyle r.style ∧ (∀ ch ∈ r.text, isTextChar ch = true) ∧ r.text ≠ []

theorem lineRuns_safe {row : List Cell} (h : ∀ c ∈ row, SafeCell c) :
    ∀ r ∈ lineRuns row, SafeRun r := by
  intro r hr
  have hp := lineRuns_props (P := ValidStyle) (Q := fun c => isTextChar c = true)
    (l := row) (fun c hc => ⟨(h c hc).2, (h c hc).1⟩) r hr
  exact ⟨hp.1, hp.2, lineRuns_ne_nil hr⟩

theorem validStyle_head {st : String} (h : ValidStyle st) (hne : st ≠ "") :
    ∃ tl, st.data = '\x1b' :: tl := by
  obtain ⟨qs, hdata, hall⟩ := h
  match qs, hdata with
  | [], hdata =>
    exfalso
    apply hne
    apply String.ext
    rw [hdata]
    rfl
  | q :: qs', hdata =>
    obtain ⟨ps, hq, -, -⟩ := hall q (List.mem_cons_self q qs')
    rw [hdata]
    simp only [List.map_cons, List.flatten_cons, hq]
    exact ⟨_, rfl⟩

theorem runTokens_cons (s : TermState) (t : Token) (ts : List Token) :
    runTokens s (t :: ts) = runTokens (step s t) ts := rfl

theorem runTokens_append (s : TermState) (a b : List Token) :
    runTokens s (a ++ b) = runTokens (runTokens s a) b := by
  simp [runTokens]

/-- Accumulated style after a list of SGR sequences. -/
def joinStyles (st : String) (qs : List String) : String := qs.foldl (· ++ ·) st

theorem joinStyles_data (qs : List String) : ∀ st : String,
    (joinStyles st qs).data = st.data ++ (qs.map String.data).flatten := by
  induction qs with
  | nil => intro st; simp [joinStyles]
  | cons q qs' ih =>
    intro st
    simp only [joinStyles, List.foldl_cons] at *
    rw [ih (st ++ q)]
    simp [String.data_append]

theorem lastChar_validStyleSeq {q : String} (h : ValidStyleSeq q) : lastChar q = some 'm' := by
  obtain ⟨ps, hq, -, -⟩ := h
  exact lastChar_of_shape hq

theorem step_csi_append {s : TermState} {q : String} (hq : ValidStyleSeq q) :
    step s (Token.csi q) = { s with currentStyle := s.currentStyle ++ q } := by
  obtain ⟨ps, hshape, hps, hne⟩ := hq
  show applyCsi s q = _
  unfold applyCsi
  rw [if_pos (lastChar_of_shape hshape), if_neg hne]

theorem lastChar_reset : lastChar resetSeq = some 'm' := rfl

theorem step_csi_reset (s : TermState) :
    step s (Token.csi resetSeq) = { s with currentStyle := "" } := by
  show applyCsi s resetSeq = _
  unfold applyCsi
  rw [if_pos lastChar_reset, if_pos rfl]

theorem runTokens_styleSeqs : ∀ (qs : List String), (∀ q ∈ qs, ValidStyleSeq q) →
    ∀ s : TermState, runTokens s (qs.map Token.csi)
      = { s with currentStyle := joinStyles s.currentStyle qs } := by
  intro qs
  induction qs with
  | nil => intro _ s; simp [runTokens, joinStyles]
  | cons q qs' ih =>
    intro hall s
    rw [List.map_cons, runTokens_cons, step_csi_append (hall q (List.mem_cons_self q qs')),
      ih (fun q' h => hall q' (List.mem_cons_of_mem q h))]
    rfl

theorem getRow_append_singleton (gdone : List (List Cell)) (p : List Cell) :
    getRow (gdone ++ [p]) (gdone.length : Int) = some p := by
  unfold getRow
  rw [if_pos (by positivity)]
  rw [Int.toNat_natCast]
  rw [List.getElem?_append_right (Nat.le_refl _)]
  simp

theorem setRow_append_singleton (gdone : List (List Cell)) (p r : List Cell) :
    setRow (gdone ++ [p]) (gdone.length : Int) r = gdone ++ [r] := by
  unfold setRow
  rw [if_pos (by positivity), Int.toNat_natCast]
  induction gdone with
  | nil => rfl
  | cons a gd ih => simp [List.set_cons_succ, ih]

theorem writeText_append (st : String) : ∀ (cs : List Char) (p : List Cell),
    writeText p (p.length : Int) st cs
      = (p ++ cs.map (fun c => (⟨c, st⟩ : Cell)),
         ((p ++ cs.map (fun c => (⟨c, st⟩ : Cell))).length : Int)) := by
  intro cs
  induction cs with
  | nil => intro p; simp [writeText]
  | cons c cs' ih =>
    intro p
    rw [writeText]
    have hwc : writeChar p (p.length : Int) c st = p ++ [⟨c, st⟩] := by
      unfold writeChar
      rw [Int.toNat_natCast]
      simp
    rw [hwc]
    have hx : (p.length : Int) + 1 = ((p ++ [(⟨c, st⟩ : Cell)]).length : Int) := by simp
    rw [hx, ih]
    simp

theorem step_text_line (gdone : List (List Cell)) (p : List Cell) (st : String) (t : String) :
    step ⟨gdone ++ [p], (p.length : Int), (gdone.length : Int), st, false⟩ (Token.text t)
      = ⟨gdone ++ [p ++ t.data.map (fun c => (⟨c, st⟩ : Cell))],
          ((p ++ t.data.map (fun c => (⟨c, st⟩ : Cell))).length : Int),
          (gdone.length : Int), st, false⟩ := by
  show applyText _ _ = _
  unfold applyText
  rw [getRow_append_singleton]
  dsimp only
  rw [writeText_append, setRow_append_singleton]

theorem applyNewline_extend (gdone : List (List Cell)) (row : List Cell) (x : Int)
    (st : String) (ob : Bool) :
    applyNewline ⟨gdone ++ [row], x, (gdone.length : Int), st, ob⟩
      = ⟨(gdone ++ [row]) ++ [[]], 0, (gdone.length : Int) + 1, st, ob⟩ := by
  unfold applyNewline newlineGrid
  dsimp only
  have hnone : getRow (gdone ++ [row]) ((gdone.length : Int) + 1) = none := by
    unfold getRow
    rw [if_pos (by positivity)]
    apply List.getElem?_eq_none
    simp
  rw [hnone]
  have ht : ((gdone.length : Int) + 1).toNat = (gdone ++ [row]).length := by
    simp
  rw [if_pos ht]

theorem lineChars_head_not_text {rs : List Run} {rest : List Char}
    (hsafe : ∀ r ∈ rs, SafeRun r)
    (hne : ∀ r, rs.head? = some r → r.style ≠ "")
    (hrest : ∀ c, rest.head? = some c → isTextChar c = false) :
    ∀ c, (lineChars rs ++ rest).head? = some c → isTextChar c = false := by
  match rs with
  | [] =>
    intro c hc
    simp [lineChars] at hc
    exact hrest c hc
  | r' :: rs' =>
    intro c hc
    have hstyle := hne r' rfl
    obtain ⟨tl, hdata⟩ := validStyle_head (hsafe r' (List.mem_cons_self r' rs')).1 hstyle
    rw [show lineChars (r' :: rs') = runChars r' ++ lineChars rs' from by
      simp [lineChars]] at hc
    rw [show runChars r' = r'.style.data ++ r'.text ++ resetSeq.data from by
      simp [runChars, hstyle]] at hc
    rw [hdata] at hc
    simp at hc
    subst hc
    decide

theorem reparse_line : ∀ (runs : List Run) (rest : List Char) (gdone : List (List Cell))
    (p : List Cell),
    (∀ r ∈ runs, SafeRun r) →
    List.Chain' (fun a b => a.style ≠ b.style) runs →
    (∀ c, rest.head? = some c → isTextChar c = false) →
    runTokens ⟨gdone ++ [p], (p.length : Int), (gdone.length : Int), "", false⟩
        (tokenize (lineChars runs ++ rest))
      = runTokens
          ⟨gdone ++ [p ++ (runs.map cellsOf).flatten],
            ((p ++ (runs.map cellsOf).flatten).length : Int), (gdone.length : Int), "", false⟩
          (tokenize rest) := by
  intro runs
  induction runs with
  | nil =>
    intro rest gdone p _ _ _
    simp [lineChars]
  | cons r rs ih =>
    intro rest gdone p hsafe hchain hrest
    obtain ⟨hstyle, htext, hne⟩ := hsafe r (List.mem_cons_self r rs)
    have hsafe' : ∀ x ∈ rs, SafeRun x := fun x hx => hsafe x (List.mem_cons_of_mem r hx)
    have hchain2 := List.chain'_cons'.mp hchain
    by_cases h0 : r.style = ""
    · have hhead : ∀ c, (lineChars rs ++ rest).head? = some c → isTextChar c = false := by
        apply lineChars_head_not_text hsafe' _ hrest
        intro r' hr'
        intro hcon
        have := hchain2.1 r' (by
          match rs, hr' with
          | x :: xs, hr' => simp at hr'; subst hr'; simp)
        rw [h0, hcon] at this
        exact this rfl
      have hlc : lineChars (r :: rs) ++ rest = r.text ++ (lineChars rs ++ rest) := by
        simp [lineChars, runChars, h0, List.append_assoc]
      rw [hlc, tokenize_text_run hne htext hhead, runTokens_cons]
      have hstep := step_text_line gdone p "" (String.mk r.text)
      rw [show (String.mk r.text).data = r.text from rfl] at hstep
      rw [show r.text.map (fun c => (⟨c, ""⟩ : Cell)) = cellsOf r from by
        simp [cellsOf, h0]] at hstep
      rw [hstep]
      rw [ih rest gdone (p ++ cellsOf r) hsafe' hchain2.2 hrest]
      simp [List.append_assoc]
    · obtain ⟨qs, hqsdata, hqsall, htok⟩ :=
        tokenize_style hstyle (r.text ++ (resetSeq.data ++ (lineChars rs ++ rest)))
      have hlc : lineChars (r :: rs) ++ rest
          = r.style.data ++ (r.text ++ (resetSeq.data ++ (lineChars rs ++ rest))) := by
        simp [lineChars, runChars, h0, List.append_assoc]
      rw [hlc, htok, runTokens_append, runTokens_styleSeqs qs hqsall]
      have hjoin : joinStyles "" qs = r.style := by
        apply String.ext
        rw [joinStyles_data]
        exact (by simpa using hqsdata.symm)
      dsimp only
      rw [hjoin]
      have hresethead : ∀ c, (resetSeq.data ++ (lineChars rs ++ rest)).head? = some c →
          isTextChar c = false := by
        intro c hc
        rw [resetSeq_data] at hc
        simp at hc
        subst hc
        decide
      rw [tokenize_text_run hne htext hresethead, runTokens_cons]
      have hstep := step_text_line gdone p r.style (String.mk r.text)
      rw [show (String.mk r.text).data = r.text from rfl] at hstep
      rw [show r.text.map (fun c => (⟨c, r.style⟩ : Cell)) = cellsOf r from rfl] at hstep
      rw [hstep, tokenize_reset, runTokens_cons, step_csi_reset]
      dsimp only
      rw [ih rest gdone (p ++ cellsOf r) hsafe' hchain2.2 hrest]
      simp [List.append_assoc]

theorem reparse_rows : ∀ (rows : List (List Cell)) (gdone : List (List Cell)),
    rows ≠ [] → (∀ row ∈ rows, ∀ c ∈ row, SafeCell c) →
    runTokens ⟨gdone ++ [[]], 0, (gdone.length : Int), "", false⟩
        (tokenize (joinLines (rows.map (fun row => lineChars (lineRuns row)))))
      = ⟨gdone ++ rows, (((rows.getLast?.getD []).length : Nat) : Int),
          ((gdone.length + rows.length - 1 : Nat) : Int), "", false⟩ := by
  intro rows
  induction rows with
  | nil => intro gdone h _; exact absurd rfl h
  | cons row rest ih =>
    intro gdone _ hsafe
    have hrowsafe : ∀ c ∈ row, SafeCell c := hsafe row (List.mem_cons_self row rest)
    match rest with
    | [] =>
      rw [show joinLines ([row].map (fun row => lineChars (lineRuns row)))
            = lineChars (lineRuns row) ++ [] from by simp [joinLines]]
      rw [show (⟨gdone ++ [[]], 0, (gdone.length : Int), "", false⟩ : TermState)
            = ⟨gdone ++ [[]], (([] : List Cell).length : Int), (gdone.length : Int), "", false⟩
          from rfl]
      rw [reparse_line (lineRuns row) [] gdone [] (lineRuns_safe hrowsafe)
        (lineRuns_chain row) (by intro c hc; simp at hc)]
      rw [show ([] : List Cell) ++ ((lineRuns row).map cellsOf).flatten
            = row from by simpa using lineRuns_flatten row]
      simp [runTokens, tokenize]
      rfl
    | row2 :: rest' =>
      rw [show joinLines ((row :: row2 :: rest').map (fun row => lineChars (lineRuns row)))
            = lineChars (lineRuns row)
              ++ ('\n' :: joinLines ((row2 :: rest').map (fun row => lineChars (lineRuns row))))
          from by simp [joinLines]]
      rw [show (⟨gdone ++ [[]], 0, (gdone.length : Int), "", false⟩ : TermState)
            = ⟨gdone ++ [[]], (([] : List Cell).length : Int), (gdone.length : Int), "", false⟩
          from rfl]
      rw [reparse_line (lineRuns row) _ gdone [] (lineRuns_safe hrowsafe)
        (lineRuns_chain row) (by intro c hc; simp at hc; subst hc; decide)]
      rw [show ([] : List Cell) ++ ((lineRuns row).map cellsOf).flatten
            = row from by simpa using lineRuns_flatten row]
      rw [tokenize_cons_ctrl _ (by decide), runTokens_cons]
      rw [show step ⟨gdone ++ [row], (row.length : Int), (gdone.length : Int), "", false⟩
            (Token.ctrl '\n')
          = applyNewline ⟨gdone ++ [row], (row.length : Int), (gdone.length : Int), "", false⟩
          from by simp [step]]
      rw [applyNewline_extend]
      rw [show ((gdone.length : Int) + 1) = (((gdone ++ [row]).length : Nat) : Int) from by
        simp]
      rw [ih (gdone ++ [row]) (by simp) (fun r hr => hsafe r (List.mem_cons_of_mem row hr))]
      simp
      try omega

theorem grid_ne_nil (cs : List Char) : (interpretChars cs).linesBuffer ≠ [] := by
  have h := (interpretChars_bounds cs).2.2.1
  intro hcon
  rw [hcon] at h
  simp at h

theorem reconstruct_roundtrip_grid (text : String) :
    (interpretChars (reconstructAnsi (getAnsiHtml text))).linesBuffer
      = (interpret text).linesBuffer := by
  have hsafe := (interpretChars_safe text.data).1
  have hgne := grid_ne_nil text.data
  rw [show getAnsiHtml text = renderDoc (interpret text).linesBuffer from rfl]
  simp only [interpret]
  rw [reconstruct_renderDoc hsafe]
  show (runTokens initState (tokenize _)).linesBuffer = _
  rw [show initState
        = ⟨([] : List (List Cell)) ++ [[]], 0, ((([] : List (List Cell)).length : Nat) : Int),
            "", false⟩ from rfl]
  rw [reparse_rows (interpretChars text.data).linesBuffer [] hgne hsafe]
  simp

/-! ### Relational small-step semantics -/

/-- One interpreter transition, as a relation mirroring the dispatch of the
`while ((match = tokenRegex.exec(text)))` loop body. -/
inductive Step : TermState → Token → TermState → Prop where
  | osc (s : TermState) (q : String) : Step s (.osc q) s
  | keypad (s : TermState) (q : String) : Step s (.keypad q) s
  | lineFeed (s : TermState) : Step s (.ctrl '\n') (applyNewline s)
  | carriageReturn (s : TermState) : Step s (.ctrl '\r') { s with cursorX := 0 }
  | backspace (s : TermState) : Step s (.ctrl '\x08') { s with cursorX := max 0 (s.cursorX - 1) }
  | ctrlOther (s : TermState) (c : Char) :
      c ≠ '\n' → c ≠ '\r' → c ≠ '\x08' → Step s (.ctrl c) s
  | csi (s : TermState) (q : String) : Step s (.csi q) (applyCsi s q)
  | text (s : TermState) (t : String) : Step s (.text t) (applyText s t)

/-- A complete run of the interpreter over a token list. -/
inductive RunsTo : TermState → List Token → TermState → Prop where
  | nil (s : TermState) : RunsTo s [] s
  | cons {s s' s'' : TermState} {t : Token} {ts : List Token} :
      Step s t s' → RunsTo s' ts s'' → RunsTo s (t :: ts) s''

/-- A full invocation on raw text: a fresh state, the scanned tokens, the
rendered output of the final grid. -/
def Produces (text : String) (out : List (List HNode)) : Prop :=
  ∃ sf, RunsTo initState (tokenize text.data) sf ∧ out = renderDoc sf.linesBuffer

theorem step_deterministic {s : TermState} {t : Token} {s₁ s₂ : TermState}
    (h₁ : Step s t s₁) (h₂ : Step s t s₂) : s₁ = s₂ := by
  cases h₁ <;> cases h₂ <;> first | rfl | simp_all

theorem runsTo_deterministic : ∀ {ts : List Token} {s s₁ s₂ : TermState},
    RunsTo s ts s₁ → RunsTo s ts s₂ → s₁ = s₂ := by
  intro ts
  induction ts with
  | nil =>
    intro s s₁ s₂ h₁ h₂
    cases h₁; cases h₂; rfl
  | cons t ts' ih =>
    intro s s₁ s₂ h₁ h₂
    cases h₁ with
    | cons hs₁ hr₁ =>
      cases h₂ with
      | cons hs₂ hr₂ =>
        rw [step_deterministic hs₁ hs₂] at hr₁
        exact ih hr₁ hr₂

theorem step_total (s : TermState) (t : Token) : Step s t (step s t) := by
  cases t with
  | osc q => exact Step.osc s q
  | keypad q => exact Step.keypad s q
  | csi q => exact Step.csi s q
  | text t => exact Step.text s t
  | ctrl c =>
    by_cases hn : c = '\n'
    · subst hn
      rw [show step s (Token.ctrl '\n') = applyNewline s from by simp [step]]
      exact Step.lineFeed s
    · by_cases hr : c = '\r'
      · subst hr
        rw [show step s (Token.ctrl '\r') = { s with cursorX := 0 } from by simp [step]]
        exact Step.carriageReturn s
      · by_cases hb : c = '\x08'
        · subst hb
          rw [show step s (Token.ctrl '\x08')
                = { s with cursorX := max 0 (s.cursorX - 1) } from by simp [step]]
          exact Step.backspace s
        · rw [show step s (Token.ctrl c) = s from by simp [step, hn, hr, hb]]
          exact Step.ctrlOther s c hn hr hb

theorem runsTo_runTokens (ts : List Token) : ∀ s : TermState, RunsTo s ts (runTokens s ts) := by
  induction ts with
  | nil => intro s; exact RunsTo.nil s
  | cons t ts' ih =>
    intro s
    exact RunsTo.cons (step_total s t) (ih (step s t))

/-! ### Claim-support lemmas -/

/-- The effect of one token on the current style, as the amended spec words
it: reset exactly on `ESC[0m`; any other SGR appends; every other token
(including line breaks and full-screen clears) leaves the style unchanged. -/
def styleStep (st : String) : Token → String
  | .csi q => if q = resetSeq then "" else if lastChar q = some 'm' then st ++ q else st
  | _ => st

theorem step_currentStyle (s : TermState) (t : Token) :
    (step s t).currentStyle = styleStep s.currentStyle t := by
  cases t with
  | osc q => rfl
  | keypad q => rfl
  | ctrl c =>
    show (step s (.ctrl c)).currentStyle = s.currentStyle
    simp only [step]
    split_ifs <;> rfl
  | text t =>
    show (applyText s t).currentStyle = s.currentStyle
    unfold applyText
    split <;> rfl
  | csi q =>
    show (applyCsi s q).currentStyle = styleStep s.currentStyle (.csi q)
    by_cases hq : q = resetSeq
    · subst hq
      simp [styleStep, applyCsi, lastChar_reset]
    · simp only [styleStep, if_neg hq]
      by_cases hm : lastChar q = some 'm'
      · simp [applyCsi, hm, hq]
      · rw [if_neg hm]
        unfold applyCsi
        rw [if_neg hm]
        split_ifs <;> first | rfl | (split <;> rfl)

theorem processChildren_append (a b : List HNode) :
    processChildren (a ++ b) = processChildren a ++ processChildren b := by
  induction a with
  | nil => simp [processChildren]
  | cons n ns ih => simp [processChildren, ih]

theorem oscScan_payload : ∀ (p : List Char) (tc rest : List Char),
    (∀ c ∈ p, isDotChar c = true ∧ c ≠ '\x07') →
    List.Chain' (fun a b => ¬(a = '\x1b' ∧ b = '\\')) p →
    (tc = ['\x07'] ∨ tc = ['\x1b', '\\']) →
    oscScan (p ++ (tc ++ rest)) = some (p ++ tc, rest) := by
  intro p
  induction p with
  | nil =>
    intro tc rest _ _ htc
    rcases htc with h | h <;> subst h
    · simp [oscScan]
    · simp [oscScan]
  | cons c p' ih =>
    intro tc rest hdot hchain htc
    have hc := hdot c (List.mem_cons_self c p')
    rw [List.cons_append, oscScan]
    rw [if_neg hc.2]
    have h2 : ¬(c = '\x1b' ∧ (p' ++ (tc ++ rest)).head? = some '\\') := by
      rintro ⟨hesc, hh⟩
      cases p' with
      | nil =>
        rcases htc with h | h <;> subst h <;> simp at hh
      | cons d p'' =>
        simp at hh
        subst hh
        exact (List.chain'_cons'.mp hchain).1 '\\' rfl ⟨hesc, rfl⟩
    rw [if_neg h2, if_pos hc.1]
    rw [ih tc rest (fun a ha => hdot a (List.mem_cons_of_mem c ha)) hchain.tail htc]
    rfl

theorem matchCsi_osc_none (rest : List Char) : matchCsi ('\x1b' :: ']' :: rest) = none := by
  simp [matchCsi]

theorem tokenize_osc_payload {p tc : List Char} (rest : List Char)
    (hdot : ∀ c ∈ p, isDotChar c = true ∧ c ≠ '\x07')
    (hchain : List.Chain' (fun a b => ¬(a = '\x1b' ∧ b = '\\')) p)
    (htc : tc = ['\x07'] ∨ tc = ['\x1b', '\\']) :
    tokenize ('\x1b' :: ']' :: (p ++ (tc ++ rest)))
      = Token.osc (String.mk ('\x1b' :: ']' :: (p ++ tc))) :: tokenize rest := by
  apply tokenize_cons_osc (matchCsi_osc_none _)
  unfold matchOsc
  dsimp only
  rw [if_pos (And.intro rfl rfl)]
  rw [oscScan_payload p tc rest hdot hchain htc]
  rfl

/-! ### Claim theorems -/

/-- C1 counterexample: the claim says a full-screen-clear token (`ESC[2J`)
resets the current style to the empty string, but after `ESC[31m ESC[2J` the
interpreter's current style is still `ESC[31m`, not `""`. -/
theorem clear_screen_does_not_reset_style :
    (interpret "\x1b[31m\x1b[2J").currentStyle = "\x1b[31m" ∧
      (interpret "\x1b[31m\x1b[2J").currentStyle ≠ "" := by
  constructor
  · decide
  · decide

/-- C1 (amended): the current style is reset to `""` exactly on the explicit
reset SGR token `ESC[0m`; any other SGR token appends its literal sequence;
every other token — line breaks, erases including the full-screen clear
`ESC[2J`, cursor moves, text — leaves the current style unchanged, and
nothing changes it at end of input. -/
theorem style_reset_only_on_reset_sgr (s : TermState) (t : Token) :
    (step s t).currentStyle = styleStep s.currentStyle t :=
  step_currentStyle s t

/-- C2 counterexample: the claim says a tagged run contributes
`reset ++ tag ++ text ++ reset`, but the reconstructor emits the tag with no
leading reset: a single red-tagged run `A` reconstructs to
`ESC[31m A ESC[0m`, not `ESC[0m ESC[31m A ESC[0m`. -/
theorem tagged_run_has_no_leading_reset :
    reconstructAnsi [[HNode.span (some (escapeAnsi "\x1b[31m".data)) ['A']]]
        = "\x1b[31mA\x1b[0m".data ∧
      "\x1b[31mA\x1b[0m".data ≠ "\x1b[0m\x1b[31mA\x1b[0m".data := by
  constructor
  · decide
  · decide

/-- C2 (amended): in every edited structured line, a run carrying a
round-trip tag contributes its decoded tag before the run's text and one
trailing reset immediately after the text (no leading reset), and a run
without a tag contributes exactly its literal text. -/
theorem run_contribution_shape (pre post : List HNode) (tag txt : List Char) :
    processChildren (pre ++ HNode.span (some tag) txt :: post)
        = processChildren pre ++ (unescapeAnsi tag ++ txt ++ resetSeq.data)
            ++ processChildren post
      ∧ processChildren (pre ++ HNode.span none txt :: post)
        = processChildren pre ++ txt ++ processChildren post := by
  constructor
  · rw [show pre ++ HNode.span (some tag) txt :: post
        = pre ++ ([HNode.span (some tag) txt] ++ post) from by simp]
    rw [processChildren_append, processChildren_append]
    simp [processChildren, processNode, List.append_assoc]
  · rw [show pre ++ HNode.span none txt :: post
        = pre ++ ([HNode.span none txt] ++ post) from by simp]
    rw [processChildren_append, processChildren_append]
    simp [processChildren, processNode, List.append_assoc]

/-- C3: reconstructing the rendered structured output of any input (with no
edit applied) yields a raw string that re-parses to the very same grid, cell
for cell, and therefore re-renders to the same structured output. -/
theorem reconstruct_render_roundtrip (text : String) :
    (interpretChars (reconstructAnsi (getAnsiHtml text))).linesBuffer
        = (interpret text).linesBuffer
      ∧ getAnsiHtml (String.mk (reconstructAnsi (getAnsiHtml text))) = getAnsiHtml text := by
  have h := reconstruct_roundtrip_grid text
  refine ⟨h, ?_⟩
  show renderDoc (interpret (String.mk _)).linesBuffer = renderDoc (interpret text).linesBuffer
  unfold interpret
  rw [show (String.mk (reconstructAnsi (getAnsiHtml text))).data
        = reconstructAnsi (getAnsiHtml text) from rfl]
  rw [h]
  rfl

/-- C4: parsing `"A ESC[31m B ESC[0m C"` produces a grid whose row 0 is
exactly the cells `{A, ""}`, `{B, ESC[31m}`, `{C, ""}`. -/
theorem red_b_example_grid :
    (interpret "A\x1b[31mB\x1b[0mC").linesBuffer[0]?
      = some [⟨'A', ""⟩, ⟨'B', "\x1b[31m"⟩, ⟨'C', ""⟩] := by
  decide

/-- C5: for every input and every row of the resulting grid, the renderer's
runs are maximal — no two adjacent runs carry identical style strings. -/
theorem adjacent_runs_distinct_styles (text : String) (row : List Cell)
    (_hrow : row ∈ (interpret text).linesBuffer) :
    List.Chain' (fun a b => a.style ≠ b.style) (lineRuns row) :=
  lineRuns_chain row

/-- C5 witness at a concrete input. -/
theorem adjacent_runs_distinct_styles_witness :
    [⟨'A', ""⟩, ⟨'B', "\x1b[31m"⟩] ∈ (interpret "A\x1b[31mB").linesBuffer ∧
      List.Chain' (fun a b => a.style ≠ b.style)
        (lineRuns [⟨'A', ""⟩, ⟨'B', "\x1b[31m"⟩]) :=
  ⟨by decide, adjacent_runs_distinct_styles "A\x1b[31mB" _ (by decide)⟩

/-- C6: after processing any prefix of the token stream of any input, the
cursor column and cursor row are both non-negative. -/
theorem cursor_coordinates_nonneg (text : String) (pfx rest : List Token)
    (_h : tokenize text.data = pfx ++ rest) :
    0 ≤ (runTokens initState pfx).cursorX ∧ 0 ≤ (runTokens initState pfx).cursorY := by
  have hb := runTokens_bounds (show BoundsInv initState from ⟨le_refl 0, le_refl 0, by decide, rfl⟩) pfx
  exact ⟨hb.1, hb.2.1⟩

/-- C6 witness at a concrete input and prefix. -/
theorem cursor_coordinates_nonneg_witness :
    tokenize "\x08A".data = [Token.ctrl '\x08'] ++ [Token.text "A"] ∧
      (0 ≤ (runTokens initState [Token.ctrl '\x08']).cursorX ∧
        0 ≤ (runTokens initState [Token.ctrl '\x08']).cursorY) :=
  ⟨by decide, cursor_coordinates_nonneg "\x08A" [Token.ctrl '\x08'] [Token.text "A"] (by decide)⟩

/-- C7: after processing any prefix of the token stream, the cursor row
refers to an existing grid row, and no out-of-bounds row access has
occurred. -/
theorem cursor_row_in_bounds (text : String) (pfx rest : List Token)
    (_h : tokenize text.data = pfx ++ rest) :
    0 ≤ (runTokens initState pfx).cursorY ∧
      (runTokens initState pfx).cursorY.toNat < (runTokens initState pfx).linesBuffer.length ∧
      (runTokens initState pfx).oob = false := by
  have hb := runTokens_bounds (show BoundsInv initState from ⟨le_refl 0, le_refl 0, by decide, rfl⟩) pfx
  exact ⟨hb.2.1, hb.2.2.1, hb.2.2.2⟩

/-- C7 witness at a concrete input and prefix. -/
theorem cursor_row_in_bounds_witness :
    tokenize "a\n\nb".data
        = [Token.text "a", Token.ctrl '\n', Token.ctrl '\n'] ++ [Token.text "b"] ∧
      (0 ≤ (runTokens initState [Token.text "a", Token.ctrl '\n', Token.ctrl '\n']).cursorY ∧
        (runTokens initState
            [Token.text "a", Token.ctrl '\n', Token.ctrl '\n']).cursorY.toNat
          < (runTokens initState
              [Token.text "a", Token.ctrl '\n', Token.ctrl '\n']).linesBuffer.length ∧
        (runTokens initState [Token.text "a", Token.ctrl '\n', Token.ctrl '\n']).oob = false) :=
  ⟨by decide, cursor_row_in_bounds "a\n\nb"
    [Token.text "a", Token.ctrl '\n', Token.ctrl '\n'] [Token.text "b"] (by decide)⟩

/-- C8 counterexample: the claim allows any characters in the OSC payload,
but a payload containing a newline is not captured as a single OSC token —
the scanner drops the escape and the payload leaks into the grid. -/
theorem osc_with_newline_not_single_token :
    tokenize "\x1b]a\nb\x07".data ≠ [Token.osc "\x1b]a\nb\x07"] ∧
      (interpret "\x1b]a\nb\x07").linesBuffer ≠ [[]] := by
  constructor
  · decide
  · decide

/-- C8 (amended): a substring of the form escape, `]`, payload, terminator —
where the payload contains no line terminator (the regex dot), no bell, and
no escape-backslash pair, and the terminator is the first bell or
escape-backslash — is scanned as a single OSC token, and processing an OSC
token leaves the state (grid, cursor, style) unchanged. -/
theorem osc_token_single_and_inert (p tc rest : List Char) (s : TermState)
    (hdot : ∀ c ∈ p, isDotChar c = true ∧ c ≠ '\x07')
    (hchain : List.Chain' (fun a b => ¬(a = '\x1b' ∧ b = '\\')) p)
    (htc : tc = ['\x07'] ∨ tc = ['\x1b', '\\']) :
    tokenize ('\x1b' :: ']' :: (p ++ (tc ++ rest)))
        = Token.osc (String.mk ('\x1b' :: ']' :: (p ++ tc))) :: tokenize rest
      ∧ step s (Token.osc (String.mk ('\x1b' :: ']' :: (p ++ tc)))) = s :=
  ⟨tokenize_osc_payload rest hdot hchain htc, rfl⟩

/-- C8 witness at a concrete payload. -/
theorem osc_token_single_and_inert_witness :
    tokenize ('\x1b' :: ']' :: (['a', 'b'] ++ (['\x07'] ++ ['c'])))
        = Token.osc (String.mk ('\x1b' :: ']' :: (['a', 'b'] ++ ['\x07'])))
            :: tokenize ['c'] ∧
      step initState (Token.osc (String.mk ('\x1b' :: ']' :: (['a', 'b'] ++ ['\x07']))))
        = initState :=
  osc_token_single_and_inert ['a', 'b'] ['\x07'] ['c'] initState
    (by decide) (by simp [List.chain'_cons]) (Or.inl rfl)

/-- C9: rendering is deterministic — any two complete runs of the
interpreter on the same raw text, each from a fresh initial state, render
identical structured output. -/
theorem render_deterministic (text : String) (o₁ o₂ : List (List HNode))
    (h₁ : Produces text o₁) (h₂ : Produces text o₂) : o₁ = o₂ := by
  obtain ⟨s₁, hr₁, he₁⟩ := h₁
  obtain ⟨s₂, hr₂, he₂⟩ := h₂
  rw [he₁, he₂, runsTo_deterministic hr₁ hr₂]

/-- C9 witness at a concrete input. -/
theorem render_deterministic_witness :
    Produces "A" (renderDoc (interpret "A").linesBuffer) ∧
      renderDoc (interpret "A").linesBuffer = renderDoc (interpret "A").linesBuffer :=
  ⟨⟨interpret "A", runsTo_runTokens (tokenize "A".data) initState, rfl⟩,
    render_deterministic "A" _ _
      ⟨interpret "A", runsTo_runTokens (tokenize "A".data) initState, rfl⟩
      ⟨interpret "A", runsTo_runTokens (tokenize "A".data) initState, rfl⟩⟩

/-- C10: every parse leaves at least one row in the grid, the renderer emits
exactly one output line per grid row, and the empty input yields exactly one
empty row rendered as a single blank-line placeholder. -/
theorem one_line_per_row_and_nonempty :
    (∀ text : String, 1 ≤ (interpret text).linesBuffer.length ∧
        (getAnsiHtml text).length = (interpret text).linesBuffer.length) ∧
      (interpret "").linesBuffer = [[]] ∧ getAnsiHtml "" = [[HNode.br]] := by
  refine ⟨fun text => ⟨?_, ?_⟩, by decide, rfl⟩
  · exact List.length_pos.mpr (grid_ne_nil text.data)
  · simp [getAnsiHtml, renderDoc]
